import Mathlib

/-!
Verification of the SymbolicDifferentiation library
(src/SymbolicDifferentiation/SymExp.h).

The library represents scalar mathematical expressions as trees
(namespace AST in SymExp.h) with a value-semantics wrapper (class SymExp),
and provides numeric substitution (Eval), symbolic differentiation
(Derive), algebraic simplification (Simplify) and rendering (to_string).

Modelling choices of this embedding:
* C++ `double` payloads are modelled as `ℚ`.  Rational division is total
  with `q / 0 = 0`, whereas IEEE division by zero yields an infinity; no
  claim below depends on that difference.
* The transcendental constant-folding functions (`std::exp`, `std::log`,
  `std::pow` on doubles) have no exact counterpart on `ℚ`; `Simplify` is
  therefore parametrised by a record `FoldOps` of the three folding
  functions, and theorems about `Simplify` hold for every choice of
  `FoldOps`.
* `std::to_string(double)` (used by `AST::Value::to_string`) formats with
  `"%f"`: fixed-point notation with exactly six digits after the decimal
  point, rounded to nearest.  It is modelled by `formatFixed6` below
  (ties are rounded half-up rather than half-even; the difference only
  matters on exact ties and no claim depends on it).
* `AST::Node::value()` on a non-Literal node executes `throw;` with no
  active exception, which calls `std::terminate` (a fatal contract
  violation).  It is modelled by the total function `Node.val?` returning
  `none` in exactly the fatal cases.
* Only SymExp.h is present in the repository sources.  The inline bodies
  in the header (Clone, Value/Symbol Eval/Derive/Simplify, all to_string,
  has_value/value) are translated from that code; the bodies that the
  header only declares (composite-node Eval/Derive/Simplify, the SymExp
  wrapper methods) are modelled from the specification, as marked on each
  definition.
-/

/-- The closed variant set of expression-tree nodes, `AST::Node` and its ten
subclasses in SymExp.h: Value (Literal), Symbol, Neg, Add, Sub, Mul, Div,
Pow, Exp, Log.  Payloads follow the C++ fields: `Value.val : double`
(modelled as `ℚ`), `Symbol.name : std::string`, and owned children. -/
inductive Node where
  | value (val : ℚ)
  | symbol (name : String)
  | neg (node : Node)
  | add (l r : Node)
  | sub (l r : Node)
  | mul (l r : Node)
  | div (l r : Node)
  | pow (l r : Node)
  | exp (node : Node)
  | log (node : Node)
  deriving DecidableEq, Repr

/-- Deep copy, from the inline `Clone` overrides in SymExp.h: every variant
rebuilds itself from clones of its children (`std::make_unique<...>` of the
children's `Clone()`).  In a purely functional embedding this is the
identity, which `clone_eq_id` below records. -/
def Node.Clone : Node → Node
  | value v => value v
  | symbol n => symbol n
  | neg a => neg a.Clone
  | add l r => add l.Clone r.Clone
  | sub l r => sub l.Clone r.Clone
  | mul l r => mul l.Clone r.Clone
  | div l r => div l.Clone r.Clone
  | pow l r => pow l.Clone r.Clone
  | exp a => exp a.Clone
  | log a => log a.Clone

/-- From the inline `has_value` overrides in SymExp.h: the base class
returns `false`, only `AST::Value` overrides it to `true`. -/
def Node.has_value : Node → Bool
  | value _ => true
  | _ => false

/-- From the inline `value` overrides in SymExp.h: `AST::Value::value()`
returns the stored number; the base-class `value()` executes `throw;`
with no active exception, i.e. `std::terminate` — a fatal contract
violation, modelled as `none`. -/
def Node.val? : Node → Option ℚ
  | value v => some v
  | _ => none

/-- Whether the root is a `Neg` node (used to state when the
`Neg(Neg(a)) → a` rewrite applies). -/
def Node.isNeg : Node → Bool
  | neg _ => true
  | _ => false

/-- Whether the root is an `Exp` node. -/
def Node.isExp : Node → Bool
  | exp _ => true
  | _ => false

/-- Whether the root is a `Log` node. -/
def Node.isLog : Node → Bool
  | log _ => true
  | _ => false

/-- The list of owned children of a node (empty for the two terminals). -/
def Node.children : Node → List Node
  | value _ => []
  | symbol _ => []
  | neg a => [a]
  | add l r => [l, r]
  | sub l r => [l, r]
  | mul l r => [l, r]
  | div l r => [l, r]
  | pow l r => [l, r]
  | exp a => [a]
  | log a => [a]

/-- Whether any `Symbol` node occurs in the tree. -/
def Node.hasSym : Node → Bool
  | value _ => false
  | symbol _ => true
  | neg a => a.hasSym
  | add l r => l.hasSym || r.hasSym
  | sub l r => l.hasSym || r.hasSym
  | mul l r => l.hasSym || r.hasSym
  | div l r => l.hasSym || r.hasSym
  | pow l r => l.hasSym || r.hasSym
  | exp a => a.hasSym
  | log a => a.hasSym

/-- Whether a `Symbol` node whose stored name equals `t` occurs in the
tree. -/
def Node.hasSymNamed (t : String) : Node → Bool
  | value _ => false
  | symbol n => n == t
  | neg a => a.hasSymNamed t
  | add l r => l.hasSymNamed t || r.hasSymNamed t
  | sub l r => l.hasSymNamed t || r.hasSymNamed t
  | mul l r => l.hasSymNamed t || r.hasSymNamed t
  | div l r => l.hasSymNamed t || r.hasSymNamed t
  | pow l r => l.hasSymNamed t || r.hasSymNamed t
  | exp a => a.hasSymNamed t
  | log a => a.hasSymNamed t

/-- Whether every `Symbol` node of the tree is named `v` ("the only free
symbol is the variable `v`"; symbol-free trees qualify vacuously). -/
def Node.allSymsAre (v : String) : Node → Bool
  | value _ => true
  | symbol n => n == v
  | neg a => a.allSymsAre v
  | add l r => l.allSymsAre v && r.allSymsAre v
  | sub l r => l.allSymsAre v && r.allSymsAre v
  | mul l r => l.allSymsAre v && r.allSymsAre v
  | div l r => l.allSymsAre v && r.allSymsAre v
  | pow l r => l.allSymsAre v && r.allSymsAre v
  | exp a => a.allSymsAre v
  | log a => a.allSymsAre v

/-- Whether the tree contains no `Neg(Neg(_))` subterm. -/
def Node.noNegNeg : Node → Bool
  | value _ => true
  | symbol _ => true
  | neg a => !a.isNeg && a.noNegNeg
  | add l r => l.noNegNeg && r.noNegNeg
  | sub l r => l.noNegNeg && r.noNegNeg
  | mul l r => l.noNegNeg && r.noNegNeg
  | div l r => l.noNegNeg && r.noNegNeg
  | pow l r => l.noNegNeg && r.noNegNeg
  | exp a => a.noNegNeg
  | log a => a.noNegNeg

/-- Modelled from the spec: node-level substitution (`AST::Node::Eval`).
The two terminal clauses are the inline header code —
`Value::Eval` returns `Clone()` (line 98) and `Symbol::Eval` returns
`s.name == name ? make_unique<Value>(value) : Clone()` (line 116).  The
composite-node bodies are only declared in SymExp.h (their .cpp is not in
the sources); per spec §4.1 Substitute, "all other nodes recurse
structurally and rebuild themselves from the substituted children". -/
def Node.Eval (s : String) (c : ℚ) : Node → Node
  | value q => value q
  | symbol n => if s = n then value c else symbol n
  | neg a => neg (a.Eval s c)
  | add l r => add (l.Eval s c) (r.Eval s c)
  | sub l r => sub (l.Eval s c) (r.Eval s c)
  | mul l r => mul (l.Eval s c) (r.Eval s c)
  | div l r => div (l.Eval s c) (r.Eval s c)
  | pow l r => pow (l.Eval s c) (r.Eval s c)
  | exp a => exp (a.Eval s c)
  | log a => log (a.Eval s c)

/-- Modelled from the spec: node-level differentiation
(`AST::Node::Derive`).  The terminal clauses are the inline header code —
`Value::Derive` returns `Value(0)` (line 99) and `Symbol::Derive` returns
`Value(s.name == name ? 1 : 0)` (line 117).  The composite-node bodies are
only declared in SymExp.h; per spec §4.1 Differentiate:
Neg(a) → Neg(a'); Add/Sub by linearity;
Mul(a,b) → Add(Mul(a', Clone b), Mul(Clone a, b')) (product rule);
Div(a,b) → Div(Sub(Mul(a', Clone b), Mul(Clone a, b')), Mul(Clone b, Clone b))
(quotient rule); Pow via the generalized rule
d(a^b) = a^b * (b' * log a + b * a'/a); Exp(a) → Mul(Exp(Clone a), a');
Log(a) → Div(a', Clone a). -/
def Node.Derive (s : String) : Node → Node
  | value _ => value 0
  | symbol n => value (if s = n then 1 else 0)
  | neg a => neg (a.Derive s)
  | add l r => add (l.Derive s) (r.Derive s)
  | sub l r => sub (l.Derive s) (r.Derive s)
  | mul l r => add (mul (l.Derive s) r.Clone) (mul l.Clone (r.Derive s))
  | div l r =>
    div (sub (mul (l.Derive s) r.Clone) (mul l.Clone (r.Derive s)))
      (mul r.Clone r.Clone)
  | pow l r =>
    mul (pow l.Clone r.Clone)
      (add (mul (r.Derive s) (log l.Clone)) (mul r.Clone (div (l.Derive s) l.Clone)))
  | exp a => mul (exp a.Clone) (a.Derive s)
  | log a => div (a.Derive s) a.Clone

/-- The value scaled by `10^6` and rounded to the nearest integer, halves
up — the rounding `"%f"` performs when trimming to six fractional digits
(printf rounds the double to nearest; ties differ only on exact halves).
Computed on the numerator and denominator with flooring integer
division: `⌊q * 10^6 + 1/2⌋ = (2 * num * 10^6 + den) fdiv (2 * den)`. -/
def roundMillionths (q : ℚ) : ℤ :=
  (2 * q.num * 1000000 + (q.den : ℤ)).fdiv (2 * (q.den : ℤ))

/-- The six fractional digits of `"%f"` output: the decimal digits of
`m % 10^6`, most significant first, padded with leading zeros to exactly
six characters. -/
def sixDigits (m : ℕ) : String :=
  String.mk [Nat.digitChar (m / 100000 % 10), Nat.digitChar (m / 10000 % 10),
    Nat.digitChar (m / 1000 % 10), Nat.digitChar (m / 100 % 10),
    Nat.digitChar (m / 10 % 10), Nat.digitChar (m % 10)]

/-- Model of `std::to_string(double)` over the rational payload: `"%f"`
formatting, i.e. the value rounded to six fractional digits and printed
in fixed-point notation with exactly six digits after the decimal point.
(IEEE `-0.0` would print a minus sign that `ℚ` cannot represent; no claim
depends on that corner.) -/
def formatFixed6 (q : ℚ) : String :=
  let n : ℤ := roundMillionths q
  let sign : String := if n < 0 then "-" else ""
  let m : ℕ := n.natAbs
  sign ++ toString (m / 1000000) ++ "." ++ sixDigits (m % 1000000)

/-- Rendering, from the inline `to_string` overrides in SymExp.h:
`Value` uses `std::to_string(val)` (line 101, modelled by `formatFixed6`),
`Symbol` returns its name (line 119), `Neg` renders `-(X)` (line 132),
Add/Sub/Mul/Div render fully parenthesized infix (lines 145, 158, 171,
184), `Pow` renders `pow(L, R)` (line 197), `Exp`/`Log` render
function-call notation (lines 211, 225). -/
def Node.to_string : Node → String
  | value v => formatFixed6 v
  | symbol n => n
  | neg a => "-(" ++ a.to_string ++ ")"
  | add l r => "(" ++ l.to_string ++ " + " ++ r.to_string ++ ")"
  | sub l r => "(" ++ l.to_string ++ " - " ++ r.to_string ++ ")"
  | mul l r => "(" ++ l.to_string ++ " * " ++ r.to_string ++ ")"
  | div l r => "(" ++ l.to_string ++ " / " ++ r.to_string ++ ")"
  | pow l r => "pow(" ++ l.to_string ++ ", " ++ r.to_string ++ ")"
  | exp a => "exp(" ++ a.to_string ++ ")"
  | log a => "log(" ++ a.to_string ++ ")"

/-- The three transcendental constant-folding functions that the C++
implementation takes from `<cmath>` on doubles (`std::exp`, `std::log`,
`std::pow`).  They have no exact counterpart on `ℚ`, so `Simplify` is
parametrised over them; theorems hold for every choice. -/
structure FoldOps where
  exp : ℚ → ℚ
  log : ℚ → ℚ
  pow : ℚ → ℚ → ℚ

/-- A trivial instantiation of `FoldOps`, used for concrete evaluations. -/
def opsId : FoldOps := ⟨fun q => q, fun q => q, fun a _ => a⟩

/-- Modelled from the spec: the local rewrite of `Neg::Simplify` on the
already simplified child (SymExp.h only declares the body).  Spec §4.1:
constant folding first (a Literal child folds to a Literal of the negated
value, which subsumes Neg(Literal 0) → Literal 0), then
Neg(Neg(a)) → a, else rebuild. -/
def simpNeg : Node → Node
  | .value c => .value (-c)
  | .neg b => b
  | a => .neg a

/-- Modelled from the spec: the local rewrite of `Add::Simplify` on the
already simplified children.  Spec §4.1: constant folding first, then
x + 0 → x, 0 + x → x, else rebuild. -/
def simpAdd (l r : Node) : Node :=
  match l.val?, r.val? with
  | some a, some b => .value (a + b)
  | none, some b => if b = 0 then l else .add l r
  | some a, none => if a = 0 then r else .add l r
  | none, none => .add l r

/-- Modelled from the spec: the local rewrite of `Sub::Simplify` on the
already simplified children.  Spec §4.1: constant folding first, then
x - 0 → x, 0 - x → Neg(x), else rebuild. -/
def simpSub (l r : Node) : Node :=
  match l.val?, r.val? with
  | some a, some b => .value (a - b)
  | none, some b => if b = 0 then l else .sub l r
  | some a, none => if a = 0 then .neg r else .sub l r
  | none, none => .sub l r

/-- Modelled from the spec: the local rewrite of `Mul::Simplify` on the
already simplified children.  Spec §4.1: constant folding first, then
x * 0 → 0, 0 * x → 0, x * 1 → x, 1 * x → x, else rebuild. -/
def simpMul (l r : Node) : Node :=
  match l.val?, r.val? with
  | some a, some b => .value (a * b)
  | none, some b => if b = 0 then .value 0 else if b = 1 then l else .mul l r
  | some a, none => if a = 0 then .value 0 else if a = 1 then r else .mul l r
  | none, none => .mul l r

/-- Modelled from the spec: the local rewrite of `Div::Simplify` on the
already simplified children.  Spec §4.1: constant folding first (with
rational division, total with `q / 0 = 0`), then x / 1 → x, 0 / x → 0;
division by zero is not special-cased. -/
def simpDiv (l r : Node) : Node :=
  match l.val?, r.val? with
  | some a, some b => .value (a / b)
  | none, some b => if b = 1 then l else .div l r
  | some a, none => if a = 0 then .value 0 else .div l r
  | none, none => .div l r

/-- Modelled from the spec: the local rewrite of `Pow::Simplify` on the
already simplified children.  Spec §4.1: constant folding first (via the
abstract `FoldOps.pow`), then x ^ 1 → x, x ^ 0 → 1, 1 ^ x → 1, else
rebuild. -/
def simpPow (ops : FoldOps) (l r : Node) : Node :=
  match l.val?, r.val? with
  | some a, some b => .value (ops.pow a b)
  | none, some b => if b = 1 then l else if b = 0 then .value 1 else .pow l r
  | some a, none => if a = 1 then .value 1 else .pow l r
  | none, none => .pow l r

/-- Modelled from the spec: the local rewrite of `Exp::Simplify` on the
already simplified child.  Spec §4.1: constant folding first (via the
abstract `FoldOps.exp`), then the inverse cancellation
Exp(Log(a)) → a, else rebuild. -/
def simpExp (ops : FoldOps) : Node → Node
  | .value c => .value (ops.exp c)
  | .log b => b
  | a => .exp a

/-- Modelled from the spec: the local rewrite of `Log::Simplify` on the
already simplified child.  Spec §4.1: constant folding first (via the
abstract `FoldOps.log`), then the inverse cancellation
Log(Exp(a)) → a, else rebuild. -/
def simpLog (ops : FoldOps) : Node → Node
  | .value c => .value (ops.log c)
  | .exp b => b
  | a => .log a

/-- Modelled from the spec: `Simplify`, a single bottom-up pass —
recursively simplify children first, then apply the local rewrite rules
at the current node on the already simplified children (spec §4.1).  The
terminal clauses are the inline header code: `Value::Simplify` and
`Symbol::Simplify` return `Clone()` (lines 100, 118); the composite-node
bodies are only declared in SymExp.h. -/
def Node.Simplify (ops : FoldOps) : Node → Node
  | value v => value v
  | symbol n => symbol n
  | neg a => simpNeg (a.Simplify ops)
  | add l r => simpAdd (l.Simplify ops) (r.Simplify ops)
  | sub l r => simpSub (l.Simplify ops) (r.Simplify ops)
  | mul l r => simpMul (l.Simplify ops) (r.Simplify ops)
  | div l r => simpDiv (l.Simplify ops) (r.Simplify ops)
  | pow l r => simpPow ops (l.Simplify ops) (r.Simplify ops)
  | exp a => simpExp ops (a.Simplify ops)
  | log a => simpLog ops (a.Simplify ops)

/-- The closed-form mathematical evaluation of a tree under an
environment for symbols, written from the spec's reading of each variant
("the closed-form mathematical evaluation of the expression", §8):
Literal denotes its number, Symbol its environment value, the arithmetic
variants their rational operations, and Pow/Exp/Log the abstract
`FoldOps` functions. -/
def Node.denote (ops : FoldOps) (env : String → ℚ) : Node → ℚ
  | value v => v
  | symbol n => env n
  | neg a => -(a.denote ops env)
  | add l r => l.denote ops env + r.denote ops env
  | sub l r => l.denote ops env - r.denote ops env
  | mul l r => l.denote ops env * r.denote ops env
  | div l r => l.denote ops env / r.denote ops env
  | pow l r => ops.pow (l.denote ops env) (r.denote ops env)
  | exp a => ops.exp (a.denote ops env)
  | log a => ops.log (a.denote ops env)

/-- The value-semantics wrapper `class SymExp` of SymExp.h: it owns
exactly one tree root. -/
structure SymExp where
  root : Node
  deriving DecidableEq, Repr

/-- Modelled from the spec: the handle-level single-variable
`SymExp::Eval(const Var&, double)` (declared at SymExp.h line 31, body
not in the sources).  Spec §4.2: "substitutes and returns a new handle";
it delegates to the node-level substitution. -/
def SymExp.Eval (se : SymExp) (v : String) (c : ℚ) : SymExp :=
  ⟨se.root.Eval v c⟩

/-- Modelled from the spec: `SymExp::Derive` delegates differentiation to
the root node and wraps the new tree (declared at SymExp.h line 33). -/
def SymExp.Derive (se : SymExp) (v : String) : SymExp :=
  ⟨se.root.Derive v⟩

/-- Modelled from the spec: `SymExp::Simplify` delegates to the root node
and wraps the new tree (declared at SymExp.h line 35). -/
def SymExp.Simplify (ops : FoldOps) (se : SymExp) : SymExp :=
  ⟨se.root.Simplify ops⟩

/-- The handle's `to_string` delegates to the root (SymExp.h line 59
renders a handle via its `to_string`). -/
def SymExp.to_string (se : SymExp) : String := se.root.to_string

/-- The handle's `has_value` reflects the root node's Literal status. -/
def SymExp.has_value (se : SymExp) : Bool := se.root.has_value

/-- The handle's `value` accessor, modelled like `Node.val?`. -/
def SymExp.val? (se : SymExp) : Option ℚ := se.root.val?

/-- The recoverable error taxonomy of the multi-variable entry points
(spec §7): ArityMismatch. -/
inductive EvalError where
  | arityMismatch
  deriving DecidableEq, Repr

/-- Modelled from the spec: the multi-variable
`SymExp::Eval(const std::vector<Var>&, const std::vector<double>&)`
(declared at SymExp.h line 32, body not in the sources).  Spec §4.2:
"requires the two lists have equal length; applies substitutions
sequentially in list order; fails with an ArityMismatch error if lengths
differ". -/
def SymExp.evalMany (se : SymExp) (vars : List String) (vals : List ℚ) :
    Except EvalError SymExp :=
  if vars.length = vals.length then
    .ok ((vars.zip vals).foldl (fun acc p => acc.Eval p.1 p.2) se)
  else
    .error .arityMismatch

def xSq : Node := Node.mul (Node.symbol "x") (Node.symbol "x")

/-- `Subterm u t`: `u` occurs as a subtree of `t`. -/
inductive Subterm : Node → Node → Prop where
  | refl (t : Node) : Subterm t t
  | step {u c t : Node} : c ∈ t.children → Subterm u c → Subterm u t

theorem clone_eq_id (t : Node) : t.Clone = t := by
  induction t <;> simp [Node.Clone, *]

theorem eval_kills_target (t : String) (v : ℚ) (e : Node) :
    (e.Eval t v).hasSymNamed t = false := by
  induction e with
  | symbol n =>
    by_cases h : t = n <;> simp [Node.Eval, Node.hasSymNamed, h]
    exact fun hn => h hn.symm
  | _ => simp_all [Node.Eval, Node.hasSymNamed]

/-- C1: differentiating `Multiply(a, b)` with respect to any variable
returns exactly the tree
`Add(Multiply(Derive(a), Clone(b)), Multiply(Clone(a), Derive(b)))`
(the product rule), and `Derive` itself performs no simplification on the
result. -/
theorem mul_derive_product_rule (a b : Node) (s : String) :
    (Node.mul a b).Derive s =
      Node.add (Node.mul (a.Derive s) b.Clone) (Node.mul a.Clone (b.Derive s)) :=
  rfl

/-- C2: differentiating a Literal returns `Literal(0)`, and
differentiating a Symbol returns `Literal(1)` exactly when the symbol's
stored name equals the target name (string equality) and `Literal(0)`
otherwise. -/
theorem value_symbol_derive (s : String) (c : ℚ) (n : String) :
    (Node.value c).Derive s = Node.value 0 ∧
      (Node.symbol n).Derive s = Node.value (if s = n then 1 else 0) :=
  ⟨rfl, rfl⟩

/-- C3: node-level substitution replaces every Symbol named `t` by
`Literal(v)`, leaves Symbols with other names and Literals unchanged, and
rebuilds every other node from its substituted children; consequently no
Symbol named `t` survives the substitution. -/
theorem eval_substitution (t : String) (v c : ℚ) (n : String) (a l r e : Node) :
    (Node.value c).Eval t v = Node.value c ∧
      (Node.symbol n).Eval t v =
        (if t = n then Node.value v else Node.symbol n) ∧
      (Node.neg a).Eval t v = Node.neg (a.Eval t v) ∧
      (Node.add l r).Eval t v = Node.add (l.Eval t v) (r.Eval t v) ∧
      (Node.sub l r).Eval t v = Node.sub (l.Eval t v) (r.Eval t v) ∧
      (Node.mul l r).Eval t v = Node.mul (l.Eval t v) (r.Eval t v) ∧
      (Node.div l r).Eval t v = Node.div (l.Eval t v) (r.Eval t v) ∧
      (Node.pow l r).Eval t v = Node.pow (l.Eval t v) (r.Eval t v) ∧
      (Node.exp a).Eval t v = Node.exp (a.Eval t v) ∧
      (Node.log a).Eval t v = Node.log (a.Eval t v) ∧
      (e.Eval t v).hasSymNamed t = false :=
  ⟨rfl, rfl, rfl, rfl, rfl, rfl, rfl, rfl, rfl, rfl, eval_kills_target t v e⟩

/-- C7 fails as stated: Pow is a binary operator node, yet `to_string`
renders it in function-call notation `pow(L, R)`, which is not of the
fully parenthesized infix shape `(L op R)` (it does not even start with
an opening parenthesis); there is no sixth infix binary operator. -/
theorem pow_to_string_function_call :
    (Node.pow (Node.symbol "x") (Node.symbol "y")).to_string.take 1 ≠ "(" ∧
      (Node.pow (Node.symbol "x") (Node.symbol "y")).to_string = "pow(x, y)" := by
  exact ⟨by decide, rfl⟩

/-- C7 (amended): `to_string` renders the four arithmetic binary
operators Add, Subtract, Multiply and Divide in fully parenthesized
infix form `(L op R)`, Negate as `-(X)`, and Power, Exp and Log in
function-call notation `pow(L, R)`, `exp(X)`, `log(X)`; a Symbol renders
its name verbatim and a Literal renders its decimal value (in the
`std::to_string` fixed-point format). -/
theorem to_string_rendering (l r a : Node) (n : String) (v : ℚ) :
    (Node.add l r).to_string = "(" ++ l.to_string ++ " + " ++ r.to_string ++ ")" ∧
      (Node.sub l r).to_string = "(" ++ l.to_string ++ " - " ++ r.to_string ++ ")" ∧
      (Node.mul l r).to_string = "(" ++ l.to_string ++ " * " ++ r.to_string ++ ")" ∧
      (Node.div l r).to_string = "(" ++ l.to_string ++ " / " ++ r.to_string ++ ")" ∧
      (Node.neg a).to_string = "-(" ++ a.to_string ++ ")" ∧
      (Node.pow l r).to_string = "pow(" ++ l.to_string ++ ", " ++ r.to_string ++ ")" ∧
      (Node.exp a).to_string = "exp(" ++ a.to_string ++ ")" ∧
      (Node.log a).to_string = "log(" ++ a.to_string ++ ")" ∧
      (Node.symbol n).to_string = n ∧
      (Node.value v).to_string = formatFixed6 v :=
  ⟨rfl, rfl, rfl, rfl, rfl, rfl, rfl, rfl, rfl, rfl⟩

/-- C9: `has_value` answers `true` exactly on Literal nodes; the value
accessor yields the stored number on a Literal and is a fatal contract
violation (modelled as `none`) on every other variant — never a silently
returned sentinel. -/
theorem has_value_val_spec (t : Node) (c : ℚ) :
    (Node.value c).has_value = true ∧
      (Node.value c).val? = some c ∧
      (t.has_value = true ↔ ∃ q, t = Node.value q) ∧
      (t.val? = none ↔ t.has_value = false) := by
  refine ⟨rfl, rfl, ?_, ?_⟩ <;> cases t <;> simp [Node.has_value, Node.val?]

theorem sixDigits_length (m : ℕ) : (sixDigits m).length = 6 := by
  simp [sixDigits, String.length]

/-- C10: a Literal's rendering follows `std::to_string(double)` — fixed
point notation with exactly six digits after the decimal point — for
every stored value; in particular `Literal(0)` renders as `"0.000000"`
and `Literal(9)` as `"9.000000"`. -/
theorem value_to_string_fixed_six (v : ℚ) :
    (Node.value v).to_string = formatFixed6 v ∧
      (∃ p f, (Node.value v).to_string = p ++ "." ++ f ∧ f.length = 6) ∧
      (Node.value 0).to_string = "0.000000" ∧
      (Node.value 9).to_string = "9.000000" := by
  refine ⟨rfl,
    ⟨(if roundMillionths v < 0 then "-" else "") ++
        toString ((roundMillionths v).natAbs / 1000000),
      sixDigits ((roundMillionths v).natAbs % 1000000), rfl, sixDigits_length _⟩,
    by decide, by decide⟩

theorem eval_closed_no_sym (v : String) (c : ℚ) (e : Node)
    (h : e.allSymsAre v = true) : (e.Eval v c).hasSym = false := by
  induction e with
  | symbol n =>
    have hn : n = v := by simpa [Node.allSymsAre] using h
    simp [Node.Eval, hn, Node.hasSym]
  | _ => simp_all [Node.Eval, Node.hasSym, Node.allSymsAre]

theorem simplify_no_sym (ops : FoldOps) (env : String → ℚ) (t : Node)
    (h : t.hasSym = false) : t.Simplify ops = Node.value (t.denote ops env) := by
  induction t with
  | value q => simp [Node.Simplify, Node.denote]
  | symbol n => simp [Node.hasSym] at h
  | neg a ih =>
    simp only [Node.hasSym] at h
    simp [Node.Simplify, ih h, simpNeg, Node.denote]
  | exp a ih =>
    simp only [Node.hasSym] at h
    simp [Node.Simplify, ih h, simpExp, Node.denote]
  | log a ih =>
    simp only [Node.hasSym] at h
    simp [Node.Simplify, ih h, simpLog, Node.denote]
  | add l r ihl ihr =>
    simp only [Node.hasSym, Bool.or_eq_false_iff] at h
    simp [Node.Simplify, ihl h.1, ihr h.2, simpAdd, Node.val?, Node.denote]
  | sub l r ihl ihr =>
    simp only [Node.hasSym, Bool.or_eq_false_iff] at h
    simp [Node.Simplify, ihl h.1, ihr h.2, simpSub, Node.val?, Node.denote]
  | mul l r ihl ihr =>
    simp only [Node.hasSym, Bool.or_eq_false_iff] at h
    simp [Node.Simplify, ihl h.1, ihr h.2, simpMul, Node.val?, Node.denote]
  | div l r ihl ihr =>
    simp only [Node.hasSym, Bool.or_eq_false_iff] at h
    simp [Node.Simplify, ihl h.1, ihr h.2, simpDiv, Node.val?, Node.denote]
  | pow l r ihl ihr =>
    simp only [Node.hasSym, Bool.or_eq_false_iff] at h
    simp [Node.Simplify, ihl h.1, ihr h.2, simpPow, Node.val?, Node.denote]

theorem denote_eval_subst (ops : FoldOps) (env : String → ℚ) (v : String)
    (c : ℚ) (e : Node) (h : e.allSymsAre v = true) :
    (e.Eval v c).denote ops env = e.denote ops (fun _ => c) := by
  induction e with
  | symbol n =>
    have hn : n = v := by simpa [Node.allSymsAre] using h
    simp [Node.Eval, hn, Node.denote]
  | _ => simp_all [Node.Eval, Node.denote, Node.allSymsAre]

/-- C4 fails as stated: `Evaluate` only substitutes (spec §4.2, §4.1
Substitute) and performs no constant folding, so
`(x*x).Evaluate(x, 3)` returns the tree `Mul(Literal 3, Literal 3)`,
whose root is not a Literal: `has_value()` is `false` and the value
accessor is the fatal-contract-violation path, not `9`. -/
theorem eval_root_not_literal :
    ((SymExp.mk xSq).Eval "x" 3).has_value = false ∧
      ((SymExp.mk xSq).Eval "x" 3).root =
        Node.mul (Node.value 3) (Node.value 3) := by
  exact ⟨by decide, by decide⟩

/-- C4 (amended): `Evaluate(v, c)` alone does not fold constants; for
every expression whose only free symbol is `v`, `Evaluate(v, c)`
followed by `Simplify` yields a handle whose root is a Literal
(`has_value()` true) and whose numeric value equals the closed-form
mathematical evaluation of the expression at `v = c` — e.g.
`(x*x).Evaluate(x, 3).Simplify().value() == 9`. -/
theorem eval_simplify_closed_form (ops : FoldOps) (v : String) (c : ℚ)
    (se : SymExp) (h : se.root.allSymsAre v = true) :
    ((se.Eval v c).Simplify ops).has_value = true ∧
      ((se.Eval v c).Simplify ops).val? =
        some (se.root.denote ops (fun _ => c)) := by
  have hclosed : (se.root.Eval v c).hasSym = false := eval_closed_no_sym v c _ h
  have hsimp := simplify_no_sym ops (fun _ => c) _ hclosed
  have hval : (se.root.Eval v c).denote ops (fun _ => c) =
      se.root.denote ops (fun _ => c) := denote_eval_subst ops (fun _ => c) v c _ h
  constructor
  · show ((se.root.Eval v c).Simplify ops).has_value = true
    rw [hsimp]; rfl
  · show ((se.root.Eval v c).Simplify ops).val? = _
    rw [hsimp, hval]; rfl

theorem eval_simplify_closed_form_witness :
    xSq.allSymsAre "x" = true ∧
      (((SymExp.mk xSq).Eval "x" 3).Simplify opsId).has_value = true ∧
      (((SymExp.mk xSq).Eval "x" 3).Simplify opsId).val? =
        some (xSq.denote opsId (fun _ => 3)) :=
  ⟨by decide, (eval_simplify_closed_form opsId "x" 3 (SymExp.mk xSq) (by decide)).1,
    (eval_simplify_closed_form opsId "x" 3 (SymExp.mk xSq) (by decide)).2⟩

theorem simpLog_rebuild (ops : FoldOps) (a : Node) (h1 : a.has_value = false)
    (h2 : a.isExp = false) : simpLog ops a = Node.log a := by
  cases a <;> simp_all [simpLog, Node.has_value, Node.isExp]

theorem simpExp_rebuild (ops : FoldOps) (a : Node) (h1 : a.has_value = false)
    (h2 : a.isLog = false) : simpExp ops a = Node.exp a := by
  cases a <;> simp_all [simpExp, Node.has_value, Node.isLog]

/-- C5 fails as stated: `Simplify` recursively simplifies the child
first, so `Exp(Log(a))` does not in general simplify to the original
subtree `a` — e.g. for `a = x + 0` the result is the simplified child
`x`, not `a` (and for a Literal child the constant-folding rule, which
has priority, fires instead of the cancellation). -/
theorem exp_log_cancellation_counterexample :
    (Node.exp (Node.log (Node.add (Node.symbol "x") (Node.value 0)))).Simplify opsId ≠
      Node.add (Node.symbol "x") (Node.value 0) := by
  decide

/-- C5 (amended): one Simplify pass rewrites `Exp(Log(a))` to the
simplified child `Simplify(a)` whenever `Simplify(a)` is neither a
Literal (constant folding has priority) nor an Exp node, and `Log(Exp(a))`
to `Simplify(a)` whenever `Simplify(a)` is neither a Literal nor a Log
node — so on already-simplified non-literal subtrees the inverse
cancellation returns the subtree itself; in particular
`log(exp(x)).Simplify().to_string() == "x"`. -/
theorem exp_log_inverse_cancellation (ops : FoldOps) (a : Node) :
    ((a.Simplify ops).has_value = false → (a.Simplify ops).isExp = false →
        (Node.exp (Node.log a)).Simplify ops = a.Simplify ops) ∧
      ((a.Simplify ops).has_value = false → (a.Simplify ops).isLog = false →
        (Node.log (Node.exp a)).Simplify ops = a.Simplify ops) ∧
      ((Node.log (Node.exp (Node.symbol "x"))).Simplify ops).to_string = "x" := by
  refine ⟨fun h1 h2 => ?_, fun h1 h2 => ?_, rfl⟩
  · show simpExp ops (simpLog ops (a.Simplify ops)) = a.Simplify ops
    rw [simpLog_rebuild ops _ h1 h2]
    rfl
  · show simpLog ops (simpExp ops (a.Simplify ops)) = a.Simplify ops
    rw [simpExp_rebuild ops _ h1 h2]
    rfl

theorem exp_log_inverse_cancellation_witness :
    ((Node.symbol "y").Simplify opsId).has_value = false ∧
      ((Node.symbol "y").Simplify opsId).isExp = false ∧
      (Node.exp (Node.log (Node.symbol "y"))).Simplify opsId =
        (Node.symbol "y").Simplify opsId :=
  ⟨by decide, by decide,
    (exp_log_inverse_cancellation opsId (Node.symbol "y")).1 (by decide) (by decide)⟩

/-- C8: the multi-variable Evaluate overload fails with a recoverable
ArityMismatch error whenever the variable list and the value list have
different lengths (no crash, no truncation or padding), returns the
unchanged handle on two empty lists, and on equal-length lists applies
the substitutions sequentially in list order (head first, then the rest
on the already substituted handle). -/
theorem evalMany_arity (se : SymExp) (vars : List String) (vals : List ℚ)
    (v : String) (c : ℚ) :
    (vars.length ≠ vals.length →
        se.evalMany vars vals = .error .arityMismatch) ∧
      se.evalMany [] [] = .ok se ∧
      se.evalMany (v :: vars) (c :: vals) = (se.Eval v c).evalMany vars vals := by
  refine ⟨fun h => ?_, rfl, ?_⟩
  · simp [SymExp.evalMany, h]
  · by_cases h : vars.length = vals.length <;>
      simp [SymExp.evalMany, h]

theorem evalMany_arity_witness :
    (SymExp.mk (Node.symbol "x")).evalMany ["x", "y"] [1, 2, 3] =
      .error .arityMismatch :=
  (evalMany_arity (SymExp.mk (Node.symbol "x")) ["x", "y"] [1, 2, 3] "z" 0).1
    (by decide)

theorem subterm_inv {u t : Node} (h : Subterm u t) :
    u = t ∨ ∃ c, c ∈ t.children ∧ Subterm u c := by
  cases h with
  | refl => exact Or.inl rfl
  | step hc hs => exact Or.inr ⟨_, hc, hs⟩

theorem subterm_of_childless {u t : Node} (h : Subterm u t)
    (hc : t.children = []) : u = t := by
  rcases subterm_inv h with rfl | ⟨c, hcm, _⟩
  · rfl
  · rw [hc] at hcm
    simp at hcm

theorem simpNeg_cases (a : Node) :
    (∃ q, simpNeg a = Node.value q) ∨
      (∃ b, a = Node.neg b ∧ simpNeg a = b) ∨ simpNeg a = Node.neg a := by
  cases a <;> simp [simpNeg]

theorem simpNeg_rebuild (a : Node) (h1 : a.val? = none) (h2 : a.isNeg = false) :
    simpNeg a = Node.neg a := by
  cases a <;> simp_all [simpNeg, Node.val?, Node.isNeg]

theorem simpAdd_cases (l r : Node) :
    (∃ q, simpAdd l r = Node.value q) ∨ simpAdd l r = l ∨ simpAdd l r = r ∨
      simpAdd l r = Node.add l r := by
  unfold simpAdd
  cases hl : l.val? <;> cases hr : r.val? <;> dsimp only <;>
    (try split_ifs) <;> simp_all

theorem simpSub_cases (l r : Node) :
    (∃ q, simpSub l r = Node.value q) ∨ simpSub l r = l ∨
      (r.val? = none ∧ simpSub l r = Node.neg r) ∨
      simpSub l r = Node.sub l r := by
  unfold simpSub
  cases hl : l.val? <;> cases hr : r.val? <;> dsimp only <;>
    (try split_ifs) <;> simp_all

theorem simpMul_cases (l r : Node) :
    (∃ q, simpMul l r = Node.value q) ∨ simpMul l r = l ∨ simpMul l r = r ∨
      simpMul l r = Node.mul l r := by
  unfold simpMul
  cases hl : l.val? <;> cases hr : r.val? <;> dsimp only <;>
    (try split_ifs) <;> simp_all

theorem simpDiv_cases (l r : Node) :
    (∃ q, simpDiv l r = Node.value q) ∨ simpDiv l r = l ∨
      simpDiv l r = Node.div l r := by
  unfold simpDiv
  cases hl : l.val? <;> cases hr : r.val? <;> dsimp only <;>
    (try split_ifs) <;> simp_all

theorem simpPow_cases (ops : FoldOps) (l r : Node) :
    (∃ q, simpPow ops l r = Node.value q) ∨ simpPow ops l r = l ∨
      simpPow ops l r = Node.pow l r := by
  unfold simpPow
  cases hl : l.val? <;> cases hr : r.val? <;> dsimp only <;>
    (try split_ifs) <;> simp_all

theorem simpExp_cases (ops : FoldOps) (a : Node) :
    (∃ q, simpExp ops a = Node.value q) ∨
      (∃ b, a = Node.log b ∧ simpExp ops a = b) ∨
      simpExp ops a = Node.exp a := by
  cases a <;> simp [simpExp]

theorem simpLog_cases (ops : FoldOps) (a : Node) :
    (∃ q, simpLog ops a = Node.value q) ∨
      (∃ b, a = Node.exp b ∧ simpLog ops a = b) ∨
      simpLog ops a = Node.log a := by
  cases a <;> simp [simpLog]

theorem simplify_fixed_of_noNegNeg (ops : FoldOps) (t : Node) :
    ∀ u, Subterm u (t.Simplify ops) → u.noNegNeg = true →
      u.Simplify ops = u := by
  induction t with
  | value q =>
    intro u hu _
    obtain rfl := subterm_of_childless hu rfl
    rfl
  | symbol n =>
    intro u hu _
    obtain rfl := subterm_of_childless hu rfl
    rfl
  | neg a ih =>
    intro u hu hn
    simp only [Node.Simplify] at hu
    rcases simpNeg_cases (a.Simplify ops) with ⟨q, hq⟩ | ⟨b, hb, hq⟩ | hq <;>
      rw [hq] at hu
    · obtain rfl := subterm_of_childless hu rfl
      rfl
    · have hb' : Subterm u (Node.neg b) :=
        Subterm.step (by simp [Node.children]) hu
      exact ih u (by rw [hb]; exact hb') hn
    · rcases subterm_inv hu with rfl | ⟨c, hc, hs⟩
      · simp only [Node.noNegNeg, Bool.and_eq_true, Bool.not_eq_true'] at hn
        show simpNeg ((a.Simplify ops).Simplify ops) = _
        rw [ih _ (Subterm.refl _) hn.2]
        exact hq
      · simp only [Node.children, List.mem_singleton] at hc
        subst hc
        exact ih u hs hn
  | add l r ihl ihr =>
    intro u hu hn
    simp only [Node.Simplify] at hu
    rcases simpAdd_cases (l.Simplify ops) (r.Simplify ops) with
      ⟨q, hq⟩ | hq | hq | hq <;> rw [hq] at hu
    · obtain rfl := subterm_of_childless hu rfl
      rfl
    · exact ihl u hu hn
    · exact ihr u hu hn
    · rcases subterm_inv hu with rfl | ⟨c, hc, hs⟩
      · simp only [Node.noNegNeg, Bool.and_eq_true] at hn
        show simpAdd ((l.Simplify ops).Simplify ops) ((r.Simplify ops).Simplify ops) = _
        rw [ihl _ (Subterm.refl _) hn.1, ihr _ (Subterm.refl _) hn.2]
        exact hq
      · simp only [Node.children, List.mem_cons, List.mem_singleton,
          List.not_mem_nil, or_false] at hc
        rcases hc with rfl | rfl
        · exact ihl u hs hn
        · exact ihr u hs hn
  | sub l r ihl ihr =>
    intro u hu hn
    simp only [Node.Simplify] at hu
    rcases simpSub_cases (l.Simplify ops) (r.Simplify ops) with
      ⟨q, hq⟩ | hq | ⟨hrn, hq⟩ | hq <;> rw [hq] at hu
    · obtain rfl := subterm_of_childless hu rfl
      rfl
    · exact ihl u hu hn
    · rcases subterm_inv hu with rfl | ⟨c, hc, hs⟩
      · simp only [Node.noNegNeg, Bool.and_eq_true, Bool.not_eq_true'] at hn
        show simpNeg ((r.Simplify ops).Simplify ops) = _
        rw [ihr _ (Subterm.refl _) hn.2]
        exact simpNeg_rebuild _ hrn hn.1
      · simp only [Node.children, List.mem_singleton] at hc
        subst hc
        exact ihr u hs hn
    · rcases subterm_inv hu with rfl | ⟨c, hc, hs⟩
      · simp only [Node.noNegNeg, Bool.and_eq_true] at hn
        show simpSub ((l.Simplify ops).Simplify ops) ((r.Simplify ops).Simplify ops) = _
        rw [ihl _ (Subterm.refl _) hn.1, ihr _ (Subterm.refl _) hn.2]
        exact hq
      · simp only [Node.children, List.mem_cons, List.mem_singleton,
          List.not_mem_nil, or_false] at hc
        rcases hc with rfl | rfl
        · exact ihl u hs hn
        · exact ihr u hs hn
  | mul l r ihl ihr =>
    intro u hu hn
    simp only [Node.Simplify] at hu
    rcases simpMul_cases (l.Simplify ops) (r.Simplify ops) with
      ⟨q, hq⟩ | hq | hq | hq <;> rw [hq] at hu
    · obtain rfl := subterm_of_childless hu rfl
      rfl
    · exact ihl u hu hn
    · exact ihr u hu hn
    · rcases subterm_inv hu with rfl | ⟨c, hc, hs⟩
      · simp only [Node.noNegNeg, Bool.and_eq_true] at hn
        show simpMul ((l.Simplify ops).Simplify ops) ((r.Simplify ops).Simplify ops) = _
        rw [ihl _ (Subterm.refl _) hn.1, ihr _ (Subterm.refl _) hn.2]
        exact hq
      · simp only [Node.children, List.mem_cons, List.mem_singleton,
          List.not_mem_nil, or_false] at hc
        rcases hc with rfl | rfl
        · exact ihl u hs hn
        · exact ihr u hs hn
  | div l r ihl ihr =>
    intro u hu hn
    simp only [Node.Simplify] at hu
    rcases simpDiv_cases (l.Simplify ops) (r.Simplify ops) with
      ⟨q, hq⟩ | hq | hq <;> rw [hq] at hu
    · obtain rfl := subterm_of_childless hu rfl
      rfl
    · exact ihl u hu hn
    · rcases subterm_inv hu with rfl | ⟨c, hc, hs⟩
      · simp only [Node.noNegNeg, Bool.and_eq_true] at hn
        show simpDiv ((l.Simplify ops).Simplify ops) ((r.Simplify ops).Simplify ops) = _
        rw [ihl _ (Subterm.refl _) hn.1, ihr _ (Subterm.refl _) hn.2]
        exact hq
      · simp only [Node.children, List.mem_cons, List.mem_singleton,
          List.not_mem_nil, or_false] at hc
        rcases hc with rfl | rfl
        · exact ihl u hs hn
        · exact ihr u hs hn
  | pow l r ihl ihr =>
    intro u hu hn
    simp only [Node.Simplify] at hu
    rcases simpPow_cases ops (l.Simplify ops) (r.Simplify ops) with
      ⟨q, hq⟩ | hq | hq <;> rw [hq] at hu
    · obtain rfl := subterm_of_childless hu rfl
      rfl
    · exact ihl u hu hn
    · rcases subterm_inv hu with rfl | ⟨c, hc, hs⟩
      · simp only [Node.noNegNeg, Bool.and_eq_true] at hn
        show simpPow ops ((l.Simplify ops).Simplify ops) ((r.Simplify ops).Simplify ops) = _
        rw [ihl _ (Subterm.refl _) hn.1, ihr _ (Subterm.refl _) hn.2]
        exact hq
      · simp only [Node.children, List.mem_cons, List.mem_singleton,
          List.not_mem_nil, or_false] at hc
        rcases hc with rfl | rfl
        · exact ihl u hs hn
        · exact ihr u hs hn
  | exp a ih =>
    intro u hu hn
    simp only [Node.Simplify] at hu
    rcases simpExp_cases ops (a.Simplify ops) with
      ⟨q, hq⟩ | ⟨b, hb, hq⟩ | hq <;> rw [hq] at hu
    · obtain rfl := subterm_of_childless hu rfl
      rfl
    · have hb' : Subterm u (Node.log b) :=
        Subterm.step (by simp [Node.children]) hu
      exact ih u (by rw [hb]; exact hb') hn
    · rcases subterm_inv hu with rfl | ⟨c, hc, hs⟩
      · simp only [Node.noNegNeg] at hn
        show simpExp ops ((a.Simplify ops).Simplify ops) = _
        rw [ih _ (Subterm.refl _) hn]
        exact hq
      · simp only [Node.children, List.mem_singleton] at hc
        subst hc
        exact ih u hs hn
  | log a ih =>
    intro u hu hn
    simp only [Node.Simplify] at hu
    rcases simpLog_cases ops (a.Simplify ops) with
      ⟨q, hq⟩ | ⟨b, hb, hq⟩ | hq <;> rw [hq] at hu
    · obtain rfl := subterm_of_childless hu rfl
      rfl
    · have hb' : Subterm u (Node.exp b) :=
        Subterm.step (by simp [Node.children]) hu
      exact ih u (by rw [hb]; exact hb') hn
    · rcases subterm_inv hu with rfl | ⟨c, hc, hs⟩
      · simp only [Node.noNegNeg] at hn
        show simpLog ops ((a.Simplify ops).Simplify ops) = _
        rw [ih _ (Subterm.refl _) hn]
        exact hq
      · simp only [Node.children, List.mem_singleton] at hc
        subst hc
        exact ih u hs hn

/-- C6 fails as stated: one Simplify pass is not idempotent on every
expression.  The rule `0 - x → Negate(x)` can create a fresh
`Negate(Negate(..))` redex that the same pass never revisits:
`0 - (-(x))` simplifies to `-(-(x))`, whose second simplification is
`x`, so the two rendered strings differ. -/
theorem simplify_not_idempotent_counterexample :
    (((Node.sub (Node.value 0) (Node.neg (Node.symbol "x"))).Simplify
          opsId).Simplify opsId).to_string ≠
      ((Node.sub (Node.value 0) (Node.neg (Node.symbol "x"))).Simplify
          opsId).to_string := by
  decide

/-- C6 (amended): a single bottom-up Simplify pass reaches a fixed point
except when its output contains a double negation (which only the
`0 - x → Negate(x)` rule can introduce): whenever `e.Simplify()` has no
`Negate(Negate(_))` subterm, `e.Simplify().Simplify().to_string()`
equals `e.Simplify().to_string()` (indeed the trees are equal). -/
theorem simplify_idempotent_of_noNegNeg (ops : FoldOps) (e : Node)
    (h : (e.Simplify ops).noNegNeg = true) :
    ((e.Simplify ops).Simplify ops).to_string = (e.Simplify ops).to_string := by
  rw [simplify_fixed_of_noNegNeg ops e _ (Subterm.refl _) h]

theorem simplify_idempotent_of_noNegNeg_witness :
    ((Node.add (Node.symbol "x") (Node.value 0)).Simplify opsId).noNegNeg = true ∧
      (((Node.add (Node.symbol "x") (Node.value 0)).Simplify opsId).Simplify
          opsId).to_string =
        ((Node.add (Node.symbol "x") (Node.value 0)).Simplify opsId).to_string :=
  ⟨by decide, simplify_idempotent_of_noNegNeg opsId _ (by decide)⟩
